import Mathlib

/-!
Verification of the resume-parser core (`parser_engine.py`).

Python strings are embedded as `List Char` (`Str`).  Each Python helper of the
source file is translated into a Lean function of the same name; the regular
expressions of the source are small enough that each one is translated into an
explicit matcher whose backtracking behaviour follows Python's `re` engine on
the concrete pattern (alternatives tried left to right, greedy quantifiers,
scan from the leftmost position).  ASCII text is assumed: Python's
`str.lower`, `str.strip`, `\s`, `\w`, `\d` agree with the Lean translations on
ASCII, which is the character set the patterns themselves are written in.
-/

set_option maxRecDepth 20000

abbrev Str := List Char

def strOf (s : String) : Str := s.data

/-- Python whitespace for `str.strip`, `str.split()` and the regex class `\s`
(ASCII range): space, tab, newline, carriage return, vertical tab, form feed. -/
def isSpace (c : Char) : Bool :=
  c = ' ' || c = '\t' || c = '\n' || c = '\r' || c = '\x0b' || c = '\x0c'

/-- Python `\w`: letters, digits and underscore (ASCII). -/
def isWordChar (c : Char) : Bool := c.isAlphanum || c = '_'

def lchar (c : Char) : Char := c.toLower

def toLowerStr (s : Str) : Str := s.map lchar

/-- Python `str.strip()`: drop whitespace from both ends. -/
def strip (s : Str) : Str :=
  ((s.dropWhile isSpace).reverse.dropWhile isSpace).reverse

/-- Python `text.split("\n")`: always returns at least one piece, keeps empties. -/
def splitOnNl : Str → List Str
  | [] => [[]]
  | c :: cs =>
    let r := splitOnNl cs
    if c = '\n' then [] :: r
    else (c :: r.headD []) :: r.tail

/-- Python `"\n".join(pieces)`. -/
def joinNl : List Str → Str
  | [] => []
  | l :: ls =>
    match ls with
    | [] => l
    | _ :: _ => l ++ '\n' :: joinNl ls

/-- Python `" ".join(pieces)`. -/
def joinSp : List Str → Str
  | [] => []
  | l :: ls =>
    match ls with
    | [] => l
    | _ :: _ => l ++ ' ' :: joinSp ls

def splitWsGo (cur : Str) : Str → List Str
  | [] => if cur.isEmpty then [] else [cur.reverse]
  | c :: cs =>
    if isSpace c then
      if cur.isEmpty then splitWsGo [] cs else cur.reverse :: splitWsGo [] cs
    else splitWsGo (c :: cur) cs

/-- Python `str.split()` with no argument: split on whitespace runs, no empties. -/
def splitWs (s : Str) : List Str := splitWsGo [] s

/-- Case-sensitive literal at the head of `s`; returns the rest after the literal. -/
def litPre : Str → Str → Option Str
  | [], s => some s
  | _ :: _, [] => none
  | l :: ls, c :: cs => if c = l then litPre ls cs else none

/-- Case-insensitive literal (the literal is given in lower case) at the head
of `s`; returns the rest after the literal. -/
def litAt : Str → Str → Option Str
  | [], s => some s
  | _ :: _, [] => none
  | l :: ls, c :: cs => if lchar c = l then litAt ls cs else none

/-- The repeated Python idiom
`[l.strip() for l in text.split("\n") if l.strip()]`. -/
def neLines (s : Str) : List Str :=
  ((splitOnNl s).map strip).filter (fun l => !l.isEmpty)

/-- Insertion-ordered dict assignment `m[k] = v` of a Python dict modelled as an
association list: replace in place when the key exists, append otherwise. -/
def setKey (m : List (String × Str)) (k : String) (v : Str) : List (String × Str) :=
  if m.any (fun p => p.1 = k) then
    m.map (fun p => if p.1 = k then (k, v) else p)
  else m ++ [(k, v)]

/-- Python `m.get(k, d)` on the association list. -/
def getD (m : List (String × Str)) (k : String) (d : Str) : Str :=
  match m.find? (fun p => p.1 = k) with
  | some p => p.2
  | none => d

/-- SKILLS_DB of the source, in declaration order. -/
def SKILLS_DB : List (String × List String) := [
  ("programming", [
    "python", "java", "javascript", "typescript", "c++", "c#", "c", "go", "rust",
    "ruby", "php", "swift", "kotlin", "scala", "r", "matlab", "perl", "bash",
    "shell", "powershell", "dart", "elixir", "haskell", "lua", "assembly"]),
  ("web", [
    "html", "css", "react", "angular", "vue", "node.js", "express", "django",
    "flask", "fastapi", "spring", "asp.net", "next.js", "nuxt.js", "svelte",
    "jquery", "bootstrap", "tailwind", "webpack", "graphql", "rest api", "soap"]),
  ("data", [
    "sql", "mysql", "postgresql", "mongodb", "redis", "elasticsearch",
    "cassandra", "dynamodb", "oracle", "sqlite", "firebase",
    "pandas", "numpy", "scipy", "matplotlib", "seaborn", "plotly",
    "tableau", "power bi", "excel", "spark", "hadoop", "hive", "kafka"]),
  ("ml_ai", [
    "machine learning", "deep learning", "neural networks", "nlp",
    "computer vision", "tensorflow", "pytorch", "keras", "scikit-learn",
    "xgboost", "lightgbm", "hugging face", "transformers", "llm", "bert",
    "gpt", "reinforcement learning", "opencv", "yolo"]),
  ("cloud_devops", [
    "aws", "azure", "gcp", "docker", "kubernetes", "terraform", "ansible",
    "jenkins", "git", "github", "gitlab", "ci/cd", "linux", "nginx",
    "apache", "microservices", "serverless", "lambda", "ec2", "s3"]),
  ("soft", [
    "leadership", "communication", "teamwork", "problem solving", "agile",
    "scrum", "project management", "critical thinking", "collaboration",
    "time management", "presentation", "mentoring"])]

def ALL_SKILLS : List String := (SKILLS_DB.map (fun p => p.2)).flatten

/-- SECTION_HEADERS of the source: each label with the literal alternatives of
its regex (every alternative in the source is a literal string). -/
def SECTION_HEADERS : List (String × List String) := [
  ("education", ["education", "academic", "qualification", "degree", "university", "college"]),
  ("experience", ["experience", "work history", "employment", "career", "professional background", "internship"]),
  ("skills", ["skills", "technical skills", "competencies", "technologies", "tools", "expertise", "proficiencies"]),
  ("projects", ["projects", "portfolio", "works", "assignments", "case studies"]),
  ("certifications", ["certif", "licenses", "credentials", "accreditation"]),
  ("summary", ["summary", "objective", "profile", "about", "overview", "introduction"]),
  ("achievements", ["achievements", "awards", "honors", "accomplishments", "recognition"]),
  ("languages", ["languages", "language proficiency"]),
  ("publications", ["publications", "papers", "research", "articles"]),
  ("references", ["references", "referees"])]

/-- The trailing class of the heading regex `[\s:]*$`. -/
def headingTailChar (c : Char) : Bool := isSpace c || c = ':'

/-- One iteration of the heading test of `extract_sections`:
`re.match("^" + pattern + "[\s:]*$", stripped, re.IGNORECASE)` for each label
in declaration order, first match wins.  A label's pattern matches iff some
literal alternative is a prefix of the lowercased stripped line and everything
after it consists of whitespace or colons. -/
def matchHeading (stripped : Str) : Option String :=
  (SECTION_HEADERS.find? (fun lp =>
    lp.2.any (fun alt =>
      match litPre alt.data (toLowerStr stripped) with
      | some rest => rest.all headingTailChar
      | none => false))).map (fun p => p.1)

/-- Month alternatives of DATE_PATTERN in alternation order, as
(full name, abbreviation); the source writes each as `abbr(?:suffix)?`, so the
greedy optional suffix tries the full name first. -/
def months : List (String × String) := [
  ("january", "jan"), ("february", "feb"), ("march", "mar"), ("april", "apr"),
  ("may", "may"), ("june", "jun"), ("july", "jul"), ("august", "aug"),
  ("september", "sep"), ("october", "oct"), ("november", "nov"), ("december", "dec")]

/-- Exactly `n` digits (`\d{n}`); returns the rest. -/
def takeNDigits : Nat → Str → Option Str
  | 0, s => some s
  | _ + 1, [] => none
  | n + 1, c :: cs => if c.isDigit then takeNDigits n cs else none

/-- The `\.?\s*\d{4}` continuation after a month token.  The optional dot and
the whitespace run are deterministic here: backtracking them cannot help,
since a dot is neither whitespace nor a digit. -/
def monthCont (s : Str) : Option Str :=
  let s1 := match s with
            | '.' :: r => r
            | _ => s
  takeNDigits 4 (s1.dropWhile isSpace)

def tryMonthToken (tok : String) (s : Str) : Option Str :=
  match litAt tok.data s with
  | some rest => monthCont rest
  | none => none

/-- Branch 1 of DATE_PATTERN: month name (full tried before abbreviation, per
the greedy optional suffix) followed by `\.?\s*\d{4}`. -/
def dateBranch1 (s : Str) : Option Str :=
  months.findSome? (fun fa =>
    (tryMonthToken fa.1 s).orElse (fun _ => tryMonthToken fa.2 s))

def sepSlashDash (s : Str) : Option Str :=
  match s with
  | c :: r => if c = '/' || c = '-' then some r else none
  | [] => none

/-- Branch 2 of DATE_PATTERN: `\d{1,2}[\/\-]\d{4}` (greedy: two digits tried
before one). -/
def dateBranch2 (s : Str) : Option Str :=
  match s with
  | a :: rest =>
    if a.isDigit then
      (match rest with
       | b :: r2 =>
         if b.isDigit then
           match sepSlashDash r2 with
           | some r3 => takeNDigits 4 r3
           | none => none
         else none
       | [] => none).orElse (fun _ =>
        match sepSlashDash rest with
        | some r3 => takeNDigits 4 r3
        | none => none)
    else none
  | [] => none

/-- Branch 3 of DATE_PATTERN: `\d{4}\s*[-–]\s*(?:\d{4}|present|current|now|ongoing)`. -/
def dateBranch3 (s : Str) : Option Str :=
  match takeNDigits 4 s with
  | none => none
  | some r1 =>
    match r1.dropWhile isSpace with
    | c :: r3 =>
      if c = '-' || c = '–' then
        let r4 := r3.dropWhile isSpace
        (takeNDigits 4 r4).orElse (fun _ =>
          List.findSome? (fun w => litAt (strOf w) r4) ["present", "current", "now", "ongoing"])
      else none
    | [] => none

/-- DATE_PATTERN at one position: the four branches in alternation order;
returns the rest of the string after the match. -/
def dateMatchRest (s : Str) : Option Str :=
  (dateBranch1 s).orElse (fun _ =>
    (dateBranch2 s).orElse (fun _ =>
      (dateBranch3 s).orElse (fun _ => takeNDigits 4 s)))

/-- Fueled `re.findall` scan: at each position try the matcher (which returns
the rest after a match); on success record the consumed piece and continue
after it, on failure advance one character.  With fuel at least the length of
the string this is exactly Python's scan, since each step consumes at least
one character. -/
def refindallF (m : Str → Option Str) : Nat → Str → List Str
  | 0, _ => []
  | _ + 1, [] => []
  | fuel + 1, c :: cs =>
    match m (c :: cs) with
    | some rest =>
      let n := (c :: cs).length - rest.length
      if n = 0 then [] :: refindallF m fuel cs
      else (c :: cs).take n :: refindallF m fuel ((c :: cs).drop n)
    | none => refindallF m fuel cs

def refindall (m : Str → Option Str) (s : Str) : List Str := refindallF m s.length s

/-- Fueled `re.search` returning the first matched substring. -/
def refirstF (m : Str → Option Str) : Nat → Str → Option Str
  | 0, _ => none
  | _ + 1, [] => none
  | fuel + 1, c :: cs =>
    match m (c :: cs) with
    | some rest => some ((c :: cs).take ((c :: cs).length - rest.length))
    | none => refirstF m fuel cs

def refirst (m : Str → Option Str) (s : Str) : Option Str := refirstF m s.length s

/-- Character class of the local part of the email regex
`[a-zA-Z0-9._%+\-]+`. -/
def emailLocalChar (c : Char) : Bool :=
  c.isAlpha || c.isDigit || c = '.' || c = '_' || c = '%' || c = '+' || c = '-'

/-- Character class of the domain part `[a-zA-Z0-9.\-]+`. -/
def emailDomChar (c : Char) : Bool := c.isAlpha || c.isDigit || c = '.' || c = '-'

/-- Email regex `[a-zA-Z0-9._%+\-]+@[a-zA-Z0-9.\-]+\.[a-zA-Z]{2,}` at one
position.  The local-part `+` is deterministic (the class excludes `@`), and
the domain `+` backtracks from the longest run: the engine picks the largest
dot split of the maximal domain run whose tail starts with two letters, then
the TLD `{2,}` greedily extends over the following letter run. -/
def emailMatchRest (s : Str) : Option Str :=
  let loc := s.takeWhile emailLocalChar
  if loc.isEmpty then none
  else
    match s.drop loc.length with
    | '@' :: afterAt =>
      let D := afterAt.takeWhile emailDomChar
      match (List.range D.length).reverse.findSome? (fun j =>
        if 1 ≤ j ∧ D.getD j ' ' = '.' ∧ (D.getD (j + 1) ' ').isAlpha ∧ (D.getD (j + 2) ' ').isAlpha
        then some j else none) with
      | some j =>
        let t := (D.drop (j + 1)).takeWhile Char.isAlpha
        some (afterAt.drop (j + 1 + t.length))
      | none => none
    | _ => none

/-- `extract_email`: first match of the email pattern, else None. -/
def extract_email (text : Str) : Option Str := refirst emailMatchRest text

/-- Core of phone pattern 1, `[6-9]\d{9}`. -/
def pat1Core (s : Str) : Option Str :=
  match s with
  | c :: r => if '6' ≤ c && c ≤ '9' then takeNDigits 9 r else none
  | [] => none

/-- Phone pattern 1 `(?:\+91[\-\s]?)?[6-9]\d{9}` at one position: the optional
prefix group is tried first (greedy), inside it the optional separator is
tried consumed first. -/
def phonePat1 (s : Str) : Option Str :=
  match s with
  | '+' :: '9' :: '1' :: r =>
    (match r with
     | c :: r2 =>
       if c = '-' || isSpace c then (pat1Core r2).orElse (fun _ => pat1Core r)
       else pat1Core r
     | [] => pat1Core r).orElse (fun _ => pat1Core s)
  | _ => pat1Core s

/-- Required separator class `[\-\s]`. -/
def sepDashSpace (s : Str) : Option Str :=
  match s with
  | c :: r => if c = '-' || isSpace c then some r else none
  | [] => none

/-- Core of phone pattern 2, `\(?\d{3}\)?[\-\s]\d{3}[\-\s]\d{4}`.  The two
optional parentheses are deterministic: not taking a present parenthesis makes
the following digit or separator test fail on it. -/
def pat2Core (s : Str) : Option Str := do
  let s1 := match s with
            | '(' :: r => r
            | _ => s
  let s2 ← takeNDigits 3 s1
  let s3 := match s2 with
            | ')' :: r => r
            | _ => s2
  let s4 ← sepDashSpace s3
  let s5 ← takeNDigits 3 s4
  let s6 ← sepDashSpace s5
  takeNDigits 4 s6

/-- Phone pattern 2 `(?:\+1[\-\s]?)?\(?\d{3}\)?[\-\s]\d{3}[\-\s]\d{4}`. -/
def phonePat2 (s : Str) : Option Str :=
  match s with
  | '+' :: '1' :: r =>
    (match r with
     | c :: r2 =>
       if c = '-' || isSpace c then (pat2Core r2).orElse (fun _ => pat2Core r)
       else pat2Core r
     | [] => pat2Core r).orElse (fun _ => pat2Core s)
  | _ => pat2Core s

/-- Core of phone pattern 3, `\d{10,14}`: greedy, consumes up to 14 of the
digit run, needs at least 10. -/
def pat3Core (s : Str) : Option Str :=
  let run := s.takeWhile Char.isDigit
  if 10 ≤ run.length then some (s.drop (min run.length 14)) else none

/-- Prefix attempt of phone pattern 3 with `k` digits after the plus. -/
def pat3Pre (r : Str) (k : Nat) : Option Str :=
  let pre := r.take k
  if pre.length = k ∧ pre.all Char.isDigit then
    match r.drop k with
    | c :: r3 =>
      if c = '-' || isSpace c then (pat3Core r3).orElse (fun _ => pat3Core (c :: r3))
      else pat3Core (c :: r3)
    | [] => pat3Core []
  else none

/-- Phone pattern 3 `(?:\+\d{1,3}[\-\s]?)?\d{10,14}`: the prefix digit count
backtracks 3, 2, 1, then the whole group is dropped. -/
def phonePat3 (s : Str) : Option Str :=
  (match s with
   | '+' :: r => List.findSome? (pat3Pre r) [3, 2, 1]
   | _ => none).orElse (fun _ => pat3Core s)

/-- `extract_phone`: the three patterns are searched over the whole text in
order; the first pattern with any match wins and its match is stripped. -/
def extract_phone (text : Str) : Option Str :=
  match refirst phonePat1 text with
  | some m => some (strip m)
  | none =>
    match refirst phonePat2 text with
    | some m => some (strip m)
    | none =>
      match refirst phonePat3 text with
      | some m => some (strip m)
      | none => none

/-- `linkedin.com/in/[\w\-]+` at one position (case-insensitive). -/
def linkedinRest (s : Str) : Option Str := do
  let r ← litAt (strOf "linkedin.com/in/") s
  let run := r.takeWhile (fun c => isWordChar c || c = '-')
  if run.isEmpty then none else some (r.drop run.length)

/-- `github.com/[\w\-]+` at one position (case-insensitive). -/
def githubRest (s : Str) : Option Str := do
  let r ← litAt (strOf "github.com/") s
  let run := r.takeWhile (fun c => isWordChar c || c = '-')
  if run.isEmpty then none else some (r.drop run.length)

def extract_linkedin (text : Str) : Option Str :=
  (refirst linkedinRest text).map (fun m => strOf "https://" ++ m)

def extract_github (text : Str) : Option Str :=
  (refirst githubRest text).map (fun m => strOf "https://" ++ m)

/-- Literal occurring anywhere in `s` (both already lowercased). -/
def containsLit (lit : Str) : Str → Bool
  | [] => (litPre lit []).isSome
  | c :: cs => (litPre lit (c :: cs)).isSome || containsLit lit cs

/-- Ten consecutive digits occur somewhere (`\d{10}` searched). -/
def hasTenDigits : Str → Bool
  | [] => false
  | c :: cs => (takeNDigits 10 (c :: cs)).isSome || hasTenDigits cs

/-- The ignore regex of `extract_name`:
`resume|curriculum|vitae|cv|email|phone|linkedin|github|@|http|www|\d{10}`
searched case-insensitively. -/
def nameIgnore (line : Str) : Bool :=
  let low := toLowerStr line
  (["resume", "curriculum", "vitae", "cv", "email", "phone", "linkedin",
    "github", "@", "http", "www"].any (fun l => containsLit (strOf l) low))
  || hasTenDigits low

/-- `extract_name`, fallback branch (the optional spaCy capability is absent in
this model, as the spec requires the core to function without it): scan the
first 6 non-empty stripped lines, skip ignored lines, return the first line of
2–5 words whose every word starts with an uppercase letter. -/
def extract_name (text : Str) : Option Str :=
  let lines := neLines text
  (lines.take 6).find? (fun line =>
    let words := splitWs line
    decide (1 < words.length) && decide (words.length ≤ 5) && !nameIgnore line
      && words.all (fun w => (w.headD ' ').isUpper))

/-- Word boundary `\b` between two adjacent positions (None = string edge). -/
def boundaryOk (a : Option Char) (b : Option Char) : Bool :=
  match a, b with
  | some x, some y => isWordChar x != isWordChar y
  | none, some y => isWordChar y
  | some x, none => isWordChar x
  | none, none => false

/-- One attempt of `\b lit \b` with `prev` the character before the current
position; `lit` and `s` are both already lowercased. -/
def wordHit (lit : Str) (prev : Option Char) (s : Str) : Bool :=
  match lit with
  | [] => false
  | l0 :: _ =>
    boundaryOk prev (some l0) &&
    (match litPre lit s with
     | some rest => boundaryOk (some (lit.getLastD ' ')) rest.head?
     | none => false)

def wordSearchGo (lit : Str) (prev : Option Char) : Str → Bool
  | [] => false
  | c :: cs => wordHit lit prev (c :: cs) || wordSearchGo lit (some c) cs

/-- `re.search(r"\b" + re.escape(lit) + r"\b", s)` as a Boolean, for a
lowercase literal over a lowercased haystack. -/
def wordSearch (lit : Str) (s : Str) : Bool := wordSearchGo lit none s

/-- Python `str.title()` (ASCII): a letter after a non-letter is uppercased, a
letter after a letter is lowercased. -/
def titleCaseGo (prevCased : Bool) : Str → Str
  | [] => []
  | c :: cs =>
    if c.isAlpha then (if prevCased then c.toLower else c.toUpper) :: titleCaseGo true cs
    else c :: titleCaseGo false cs

def titleCase (s : Str) : Str := titleCaseGo false s

/-- Python `str.capitalize()` (ASCII): first character uppercased, the rest
lowercased. -/
def capitalizeStr : Str → Str
  | [] => []
  | c :: cs => c.toUpper :: cs.map Char.toLower

/-- Display form of a matched skill:
`skill.title() if len(skill) <= 3 else skill.capitalize()`. -/
def displaySkill (sk : String) : Str :=
  if sk.data.length ≤ 3 then titleCase sk.data else capitalizeStr sk.data

/-- `extract_skills`: lowercase the text, whole-word search for every keyword
of every category, keep categories with at least one hit. -/
def extract_skills (text : Str) : List (String × List Str) :=
  let low := toLowerStr text
  (SKILLS_DB.map (fun catsk =>
    (catsk.1, (catsk.2.filter (fun sk => wordSearch sk.data low)).map displaySkill))).filter
    (fun p => !p.2.isEmpty)

/-- The loop of `extract_sections`: iterate lines keeping the current label
and a buffer (accumulated reversed); a heading line flushes the buffer into
the current label and switches to the matched label, any other line is
appended to the buffer; the final buffer is flushed at the end. -/
def extractSectionsLoop : List Str → String → List Str → List (String × Str) → List (String × Str)
  | [], current, buffer, sections => setKey sections current (strip (joinNl buffer.reverse))
  | line :: rest, current, buffer, sections =>
    match matchHeading (strip line) with
    | some sec =>
      extractSectionsLoop rest sec [] (setKey sections current (strip (joinNl buffer.reverse)))
    | none => extractSectionsLoop rest current (line :: buffer) sections

/-- `extract_sections`: split on newlines and run the labelling loop starting
in the "header" section. -/
def extract_sections (text : Str) : List (String × Str) :=
  extractSectionsLoop (splitOnNl text) "header" [] []

/-- The flush sequence of the section loop: the (label, buffered lines) pairs
in the order the loop flushes them.  This is a proof-side view of
`extractSectionsLoop`; `extract_sections` equals folding `setKey` over it. -/
def flushSeq : List Str → String → List Str → List (String × List Str)
  | [], current, buffer => [(current, buffer.reverse)]
  | line :: rest, current, buffer =>
    match matchHeading (strip line) with
    | some sec => (current, buffer.reverse) :: flushSeq rest sec []
    | none => flushSeq rest current (line :: buffer)

/-- The loop state of `extract_sections` before the terminal flush:
(current label, buffer accumulated reversed, sections written so far).
Processing a heading line flushes the buffer into the current label and
switches to the matched label; any other line is buffered. -/
def sectionsState : List Str → String × List Str × List (String × Str) → String × List Str × List (String × Str)
  | [], st => st
  | line :: rest, (cur, buf, secs) =>
    match matchHeading (strip line) with
    | some sec => sectionsState rest (sec, [], setKey secs cur (strip (joinNl buf.reverse)))
    | none => sectionsState rest (cur, line :: buf, secs)

/-- The terminal flush of the section loop applied to a loop state. -/
def finalFlush (st : String × List Str × List (String × Str)) : List (String × Str) :=
  setKey st.2.2 st.1 (strip (joinNl st.2.1.reverse))

/-- Degree-pattern token: a literal character or the optional dot `\.?`. -/
inductive PTok where
  | lit (c : Char)
  | optDot
deriving DecidableEq

def pt (s : String) : List PTok := s.data.map PTok.lit

/-- DEGREE_PATTERNS of the source: each pattern as its list of alternatives,
each alternative as literal characters and optional dots. -/
def DEGREE_PATTERNS : List (List (List PTok)) := [
  [pt "b" ++ [PTok.optDot] ++ pt "tech", pt "bachelor of technology"],
  [pt "b" ++ [PTok.optDot] ++ pt "e" ++ [PTok.optDot], pt "bachelor of engineering"],
  [pt "b" ++ [PTok.optDot] ++ pt "sc" ++ [PTok.optDot], pt "bachelor of science"],
  [pt "b" ++ [PTok.optDot] ++ pt "a" ++ [PTok.optDot], pt "bachelor of arts"],
  [pt "b" ++ [PTok.optDot] ++ pt "com", pt "bachelor of commerce"],
  [pt "m" ++ [PTok.optDot] ++ pt "tech", pt "master of technology"],
  [pt "m" ++ [PTok.optDot] ++ pt "sc" ++ [PTok.optDot], pt "master of science"],
  [pt "m" ++ [PTok.optDot] ++ pt "b" ++ [PTok.optDot] ++ pt "a", pt "master of business"],
  [pt "m" ++ [PTok.optDot] ++ pt "c" ++ [PTok.optDot] ++ pt "a", pt "master of computer"],
  [pt "ph" ++ [PTok.optDot] ++ pt "d", pt "doctor of philosophy"],
  [pt "diploma", pt "associate"]]

/-- Match a degree alternative at the head of `s` (case-insensitive); both
orders of the optional dot are tried, which for a Boolean result is exactly
the regex semantics. -/
def matchPToks : List PTok → Str → Bool
  | [], _ => true
  | PTok.lit c :: ps, x :: xs => lchar x = c && matchPToks ps xs
  | PTok.lit _ :: _, [] => false
  | PTok.optDot :: ps, s =>
    match s with
    | '.' :: xs => matchPToks ps xs || matchPToks ps s
    | _ => matchPToks ps s

/-- `re.search` of a degree pattern over a line: some alternative matches at
some position. -/
def searchPToks (alts : List (List PTok)) : Str → Bool
  | [] => alts.any (fun a => matchPToks a [])
  | c :: cs => alts.any (fun a => matchPToks a (c :: cs)) || searchPToks alts cs

structure EducationRecord where
  degree : Str
  institution : Str
  dates : List Str
deriving DecidableEq

/-- `extract_education`: for every non-empty stripped line matching some
degree pattern, emit a record whose context window for dates spans one line
before through two lines after, space-joined. -/
def extract_education (text : Str) : List EducationRecord :=
  let lines := neLines text
  (List.range lines.length).filterMap (fun i =>
    if DEGREE_PATTERNS.any (fun alts => searchPToks alts (lines.getD i [])) then
      let context := joinSp ((lines.drop (i - 1)).take (i + 3 - (i - 1)))
      some { degree := lines.getD i [], institution := lines.getD (i + 1) [],
             dates := refindall dateMatchRest context }
    else none)

/-- Fueled `re.split(r"\n{2,}", text)`: a run of two or more newlines is a
separator (consumed greedily); a single newline stays in the current piece. -/
def splitBlocksF : Nat → Str → Str → List Str
  | 0, cur, _ => [cur.reverse]
  | _ + 1, cur, [] => [cur.reverse]
  | fuel + 1, cur, c :: cs =>
    if c = '\n' ∧ cs.headD ' ' = '\n' then
      cur.reverse :: splitBlocksF fuel [] (cs.dropWhile (fun x => x = '\n'))
    else splitBlocksF fuel (c :: cur) cs

def splitBlocks (text : Str) : List Str := splitBlocksF text.length [] text

structure ExperienceRecord where
  title : Str
  company : Str
  dates : List Str
  description : Str
deriving DecidableEq

/-- One block of the `extract_experience` loop: skip whitespace-only blocks;
otherwise a record is built iff the block has at least one date match (the
line list of a surviving block is never empty). -/
def expStep (block : Str) : Option ExperienceRecord :=
  if (strip block).isEmpty then none
  else
    let dates := refindall dateMatchRest block
    let lines := neLines block
    if !dates.isEmpty && !lines.isEmpty then
      some { title := lines.headD [],
             company := if 1 < lines.length then lines.getD 1 [] else [],
             dates := dates,
             description := if 2 < lines.length then joinNl (lines.drop 2) else [] }
    else none

/-- `extract_experience`: blocks split on blank-line gaps, each block through
`expStep`. -/
def extract_experience (text : Str) : List ExperienceRecord :=
  (splitBlocks text).filterMap expStep

structure ProjectRecord where
  name : Str
  description : Str
  technologies : List Str
deriving DecidableEq

/-- One block of the `extract_projects` loop: every block with a non-empty
line becomes a record; technologies are searched in the full joined
description, the stored description is cut to 300 characters, technologies to
the first 8 in keyword-table order. -/
def projStep (block : Str) : Option ProjectRecord :=
  let lines := neLines block
  if lines.isEmpty then none
  else
    let desc := joinNl lines.tail
    let techs := (ALL_SKILLS.filter (fun sk => wordSearch sk.data (toLowerStr desc))).map
      (fun sk => capitalizeStr sk.data)
    some { name := lines.headD [], description := desc.take 300,
           technologies := techs.take 8 }

/-- `extract_projects`: at most the first 5 records are kept. -/
def extract_projects (text : Str) : List ProjectRecord :=
  ((splitBlocks text).filterMap projStep).take 5

structure ContactInfo where
  name : Option Str
  email : Option Str
  phone : Option Str
  linkedin : Option Str
  github : Option Str
deriving DecidableEq

structure Meta where
  parsed_at : String
  word_count : Nat
deriving DecidableEq

structure ParsedResume where
  meta : Meta
  contact : ContactInfo
  summary : Str
  skills : List (String × List Str)
  experience : List ExperienceRecord
  education : List EducationRecord
  projects : List ProjectRecord
  certifications : Str
  languages : Str
  achievements : Str
  raw_sections : List (String × Str)
  score : ℤ
  skill_count : Nat
deriving DecidableEq

/-- Python truthiness of an optional string field. -/
def truthyOpt : Option Str → Bool
  | none => false
  | some s => !s.isEmpty

def skillsTotal (sk : List (String × List Str)) : Nat :=
  (sk.map (fun p => p.2.length)).sum

/-- `calculate_score`.  The source accumulates a Python float; every value it
can take is a small integer represented exactly: `20 * 0.4` evaluates to
exactly `8.0` in IEEE-754 double arithmetic (20·fl(0.4) = 8 + 2⁻⁵¹ rounds to
8.0) and `20 * 0.3` to exactly `6.0` (20·fl(0.3) = 6 − 2⁻⁵² rounds to 6.0),
and sums of integers below 2⁵³ are exact, so the float accumulator is
faithfully modelled in ℚ with the contributions 8, 6, 6, 10 and the capped
integer terms.  The final `round(min(score, 100))` is Python's banker's
rounding, which agrees with Mathlib's `round` on integral values. -/
def calculate_score (contact : ContactInfo) (summary : Str)
    (skills : List (String × List Str)) (experience : List ExperienceRecord)
    (education : List EducationRecord) (projects : List ProjectRecord) : ℤ :=
  round (min
    ((if truthyOpt contact.email then (8 : ℚ) else 0)
      + (if truthyOpt contact.phone then (6 : ℚ) else 0)
      + (if truthyOpt contact.linkedin then (6 : ℚ) else 0)
      + (if !summary.isEmpty then (10 : ℚ) else 0)
      + min 25 (2 * (skillsTotal skills : ℚ))
      + min 25 (8 * (experience.length : ℚ))
      + min 15 (7 * (education.length : ℚ))
      + min 5 (2 * (projects.length : ℚ)))
    100)

/-- `ResumeParser.parse_text`.  The wall-clock timestamp of the source
(`datetime.now().isoformat()`) is the `parsedAtTs` parameter: it is the one
impure input of the call.  The source also binds `header_text =
sections.get("header", text[:1000])` but never uses it afterwards. -/
def parse_text (parsedAtTs : String) (text : Str) : ParsedResume :=
  let sections := extract_sections text
  let skills_text := getD sections "skills" [] ++ '\n' :: text
  let exp_text := getD sections "experience" []
  let edu_text := getD sections "education" []
  let proj_text := getD sections "projects" []
  let contact : ContactInfo :=
    { name := extract_name text, email := extract_email text,
      phone := extract_phone text, linkedin := extract_linkedin text,
      github := extract_github text }
  let summary := getD sections "summary" []
  let skills := extract_skills skills_text
  let experience := if !exp_text.isEmpty then extract_experience exp_text else []
  let education := if !edu_text.isEmpty then extract_education edu_text else extract_education text
  let projects := if !proj_text.isEmpty then extract_projects proj_text else []
  { meta := { parsed_at := parsedAtTs, word_count := (splitWs text).length },
    contact := contact,
    summary := summary,
    skills := skills,
    experience := experience,
    education := education,
    projects := projects,
    certifications := getD sections "certifications" [],
    languages := getD sections "languages" [],
    achievements := getD sections "achievements" [],
    raw_sections := sections.map (fun p => (p.1, p.2.take 500)),
    score := calculate_score contact summary skills experience education projects,
    skill_count := skillsTotal skills }

/-- The parse result with the timestamp blanked, for comparing two parses of
the same text. -/
def eraseTs (r : ParsedResume) : ParsedResume :=
  { r with meta := { r.meta with parsed_at := "" } }

/-- Claim-side reading of one experience block, following the words of the
claim: a block yields a record iff it contains at least one date-pattern
match; title is the first non-empty line, company the second if present else
empty, dates all date matches, description empty when at most two non-empty
lines. -/
def expClaim (block : Str) : Option ExperienceRecord :=
  let dates := refindall dateMatchRest block
  if dates.isEmpty then none
  else
    let lines := neLines block
    some { title := lines.headD [], company := lines.getD 1 [],
           dates := dates,
           description := if lines.length ≤ 2 then [] else joinNl (lines.drop 2) }

/-- Concrete no-heading input of more than 1000 characters. -/
def tC6 : Str := List.replicate 1001 'a'

/-- Concrete one-block project input whose description exceeds 300 characters
before the word python appears. -/
def tC10 : Str := strOf "P\n" ++ List.replicate 301 'x' ++ strOf " python"

/-- Concrete heading-free input containing a degree line. -/
def tC4 : Str := strOf "B.Tech Computer Science\nMIT, 2020"

theorem calculate_score_eq (contact : ContactInfo) (summary : Str)
    (skills : List (String × List Str)) (experience : List ExperienceRecord)
    (education : List EducationRecord) (projects : List ProjectRecord) :
    calculate_score contact summary skills experience education projects =
      min 100
        ((if truthyOpt contact.email then (8 : ℤ) else 0)
          + (if truthyOpt contact.phone then (6 : ℤ) else 0)
          + (if truthyOpt contact.linkedin then (6 : ℤ) else 0)
          + (if !summary.isEmpty then (10 : ℤ) else 0)
          + min 25 (2 * (skillsTotal skills : ℤ))
          + min 25 (8 * (experience.length : ℤ))
          + min 15 (7 * (education.length : ℤ))
          + min 5 (2 * (projects.length : ℤ))) := by
  have key : min
      ((if truthyOpt contact.email then (8 : ℚ) else 0)
        + (if truthyOpt contact.phone then (6 : ℚ) else 0)
        + (if truthyOpt contact.linkedin then (6 : ℚ) else 0)
        + (if !summary.isEmpty then (10 : ℚ) else 0)
        + min 25 (2 * (skillsTotal skills : ℚ))
        + min 25 (8 * (experience.length : ℚ))
        + min 15 (7 * (education.length : ℚ))
        + min 5 (2 * (projects.length : ℚ))) 100
      = ((min 100
          ((if truthyOpt contact.email then (8 : ℤ) else 0)
            + (if truthyOpt contact.phone then (6 : ℤ) else 0)
            + (if truthyOpt contact.linkedin then (6 : ℤ) else 0)
            + (if !summary.isEmpty then (10 : ℤ) else 0)
            + min 25 (2 * (skillsTotal skills : ℤ))
            + min 25 (8 * (experience.length : ℤ))
            + min 15 (7 * (education.length : ℤ))
            + min 5 (2 * (projects.length : ℤ))) : ℤ) : ℚ) := by
    split_ifs <;> push_cast <;> rw [min_comm] <;> try (congr 1; ring)
  unfold calculate_score
  rw [key, round_intCast]

theorem calculate_score_bounds (contact : ContactInfo) (summary : Str)
    (skills : List (String × List Str)) (experience : List ExperienceRecord)
    (education : List EducationRecord) (projects : List ProjectRecord) :
    0 ≤ calculate_score contact summary skills experience education projects ∧
      calculate_score contact summary skills experience education projects ≤ 100 := by
  rw [calculate_score_eq]
  refine ⟨le_min (by norm_num) ?_, min_le_left _ _⟩
  have t1 : (0 : ℤ) ≤ if truthyOpt contact.email then 8 else 0 := by split <;> norm_num
  have t2 : (0 : ℤ) ≤ if truthyOpt contact.phone then 6 else 0 := by split <;> norm_num
  have t3 : (0 : ℤ) ≤ if truthyOpt contact.linkedin then 6 else 0 := by split <;> norm_num
  have t4 : (0 : ℤ) ≤ if !summary.isEmpty then 10 else 0 := by split <;> norm_num
  have t5 : (0 : ℤ) ≤ min 25 (2 * (skillsTotal skills : ℤ)) := le_min (by norm_num) (by positivity)
  have t6 : (0 : ℤ) ≤ min 25 (8 * (experience.length : ℤ)) := le_min (by norm_num) (by positivity)
  have t7 : (0 : ℤ) ≤ min 15 (7 * (education.length : ℤ)) := le_min (by norm_num) (by positivity)
  have t8 : (0 : ℤ) ≤ min 5 (2 * (projects.length : ℤ)) := le_min (by norm_num) (by positivity)
  linarith

theorem parse_text_score (ts : String) (text : Str) :
    (parse_text ts text).score = calculate_score (parse_text ts text).contact
      (parse_text ts text).summary (parse_text ts text).skills
      (parse_text ts text).experience (parse_text ts text).education
      (parse_text ts text).projects := rfl

/-- C1: for every string input, `parse_text` is a total function (the Lean
translation is a plain function, and no step of the source can raise on `str`
input) and its score field is an integer between 0 and 100. -/
theorem spec_C1 (ts : String) (text : Str) :
    0 ≤ (parse_text ts text).score ∧ (parse_text ts text).score ≤ 100 := by
  rw [parse_text_score]
  exact calculate_score_bounds _ _ _ _ _ _

/-- C3: the score equals, capped at 100 (the rounding of the source is the
identity because every float it rounds is integral), 8 for an email plus 6
for a phone plus 6 for a linkedin, plus 10 for a non-empty summary, plus
min 25 (2·skills), min 25 (8·experience), min 15 (7·education),
min 5 (2·projects). -/
theorem spec_C3 (ts : String) (text : Str) :
    (parse_text ts text).score =
      min 100
        ((if truthyOpt (parse_text ts text).contact.email then (8 : ℤ) else 0)
          + (if truthyOpt (parse_text ts text).contact.phone then (6 : ℤ) else 0)
          + (if truthyOpt (parse_text ts text).contact.linkedin then (6 : ℤ) else 0)
          + (if !(parse_text ts text).summary.isEmpty then (10 : ℤ) else 0)
          + min 25 (2 * (skillsTotal (parse_text ts text).skills : ℤ))
          + min 25 (8 * ((parse_text ts text).experience.length : ℤ))
          + min 15 (7 * ((parse_text ts text).education.length : ℤ))
          + min 5 (2 * ((parse_text ts text).projects.length : ℤ))) :=
  calculate_score_eq (parse_text ts text).contact (parse_text ts text).summary
    (parse_text ts text).skills (parse_text ts text).experience
    (parse_text ts text).education (parse_text ts text).projects

/-- C5: a parse is a deterministic function of the input text; two parses of
the same text agree on everything except the meta timestamp. -/
theorem spec_C5 (ts1 ts2 : String) (text : Str) :
    eraseTs (parse_text ts1 text) = eraseTs (parse_text ts2 text) := rfl

/-- C8: on the empty string the parse returns null contact fields, an empty
skills mapping, empty experience, education and projects lists, and score 0. -/
theorem spec_C8 (ts : String) :
    (parse_text ts []).contact = ⟨none, none, none, none, none⟩
    ∧ (parse_text ts []).skills = []
    ∧ (parse_text ts []).experience = []
    ∧ (parse_text ts []).education = []
    ∧ (parse_text ts []).projects = []
    ∧ (parse_text ts []).score = 0 := by
  refine ⟨rfl, rfl, rfl, rfl, rfl, ?_⟩
  rw [parse_text_score]
  rw [show (parse_text ts []).contact = ⟨none, none, none, none, none⟩ from rfl,
    show (parse_text ts []).summary = [] from rfl,
    show (parse_text ts []).skills = [] from rfl,
    show (parse_text ts []).experience = [] from rfl,
    show (parse_text ts []).education = [] from rfl,
    show (parse_text ts []).projects = [] from rfl]
  rw [calculate_score_eq]
  decide

theorem extractSectionsLoop_eq_fold (lines : List Str) :
    ∀ (cur : String) (buf : List Str) (sections : List (String × Str)),
    extractSectionsLoop lines cur buf sections =
      (flushSeq lines cur buf).foldl
        (fun m kb => setKey m kb.1 (strip (joinNl kb.2))) sections := by
  induction lines with
  | nil => intro cur buf sections; simp [extractSectionsLoop, flushSeq]
  | cons line rest ih =>
    intro cur buf sections
    cases h : matchHeading (strip line) with
    | some sec => simp [extractSectionsLoop, flushSeq, h, ih]
    | none => simp [extractSectionsLoop, flushSeq, h, ih]

theorem flushSeq_flatten (lines : List Str) :
    ∀ (cur : String) (buf : List Str),
    ((flushSeq lines cur buf).map Prod.snd).flatten =
      buf.reverse ++ lines.filter (fun l => (matchHeading (strip l)).isNone) := by
  induction lines with
  | nil => intro cur buf; simp [flushSeq]
  | cons line rest ih =>
    intro cur buf
    cases h : matchHeading (strip line) with
    | some sec => simp [flushSeq, h, ih]
    | none => simp [flushSeq, h, ih, List.filter_cons]

/-- C2 (amended): heading lines are consumed as delimiters and reach no
section buffer; every non-heading line is appended to exactly one flushed
buffer, and concatenating the flushed buffers in flush order gives exactly
the non-heading lines of the input in original order.  The returned mapping
stores, for each label, the stripped newline-join of its buffers with the
last flush winning. -/
theorem spec_C2_amended (text : Str) :
    ((flushSeq (splitOnNl text) "header" []).map Prod.snd).flatten
      = (splitOnNl text).filter (fun l => (matchHeading (strip l)).isNone)
    ∧ extract_sections text
      = (flushSeq (splitOnNl text) "header" []).foldl
          (fun m kb => setKey m kb.1 (strip (joinNl kb.2))) [] := by
  constructor
  · simpa using flushSeq_flatten (splitOnNl text) "header" []
  · exact extractSectionsLoop_eq_fold (splitOnNl text) "header" [] []

/-- C2 (counterexample): in the input "a\nSkills\nb" the line "Skills" is a
line of the input but appears in no section's raw block, refuting the claim
that every line of the input appears in exactly one section's raw block. -/
theorem spec_C2_cex :
    strOf "Skills" ∈ splitOnNl (strOf "a\nSkills\nb")
    ∧ (∀ p ∈ extract_sections (strOf "a\nSkills\nb"), strOf "Skills" ∉ splitOnNl p.2)
    ∧ ((extract_sections (strOf "a\nSkills\nb")).map (fun p => (splitOnNl p.2).length)).sum = 2
    ∧ (splitOnNl (strOf "a\nSkills\nb")).length = 3 := by
  decide

theorem find?_map_replace (k : String) (v : Str) :
    ∀ (m : List (String × Str)), m.any (fun q => q.1 = k) = true →
    (m.map (fun p => if p.1 = k then (k, v) else p)).find? (fun p => p.1 = k)
      = some (k, v)
  | [], hm => by simp at hm
  | p :: m, hm => by
    by_cases hp : p.1 = k
    · simp [hp]
    · have hm2 : m.any (fun q => q.1 = k) = true := by
        simpa [List.any_cons, hp] using hm
      simp [hp, find?_map_replace k v m hm2]

theorem find?_append_single (k : String) (v : Str) (m : List (String × Str))
    (hm : m.any (fun q => q.1 = k) = false) :
    (m ++ [(k, v)]).find? (fun p => p.1 = k) = some (k, v) := by
  have hnone : m.find? (fun p => p.1 = k) = none := by
    rw [List.find?_eq_none]
    intro a ha
    have := (List.any_eq_false).mp hm a ha
    simpa using this
  simp [List.find?_append, hnone]

theorem find?_setKey_self (m : List (String × Str)) (k : String) (v : Str) :
    (setKey m k v).find? (fun p => p.1 = k) = some (k, v) := by
  cases hm : m.any (fun q => q.1 = k) with
  | true => simpa [setKey, hm] using find?_map_replace k v m hm
  | false => simpa [setKey, hm] using find?_append_single k v m hm

theorem find?_map_replace_other (k' k : String) (v : Str) (h : k' ≠ k) :
    ∀ (m : List (String × Str)),
    (m.map (fun p => if p.1 = k' then (k', v) else p)).find? (fun p => p.1 = k)
      = m.find? (fun p => p.1 = k)
  | [] => by simp
  | p :: m => by
    by_cases hp : p.1 = k'
    · have hpk : ¬ p.1 = k := by rw [hp]; exact h
      simp [hp, h, hpk, find?_map_replace_other k' k v h m]
    · by_cases hpk : p.1 = k
      · simp [hp, hpk, Ne.symm h]
      · simp [hp, hpk, find?_map_replace_other k' k v h m]

theorem find?_setKey_other (m : List (String × Str)) (k' k : String) (v : Str)
    (h : k' ≠ k) :
    (setKey m k' v).find? (fun p => p.1 = k) = m.find? (fun p => p.1 = k) := by
  cases hm : m.any (fun q => q.1 = k') with
  | true => simpa [setKey, hm] using find?_map_replace_other k' k v h m
  | false =>
    have hone : ([((k', v))] : List (String × Str)).find? (fun p => p.1 = k) = none := by
      simp [List.find?, h]
    simp [setKey, hm, List.find?_append, hone]

theorem getD_setKey_self (m : List (String × Str)) (k : String) (v d : Str) :
    getD (setKey m k v) k d = v := by
  simp [getD, find?_setKey_self]

theorem getD_setKey_other (m : List (String × Str)) (k' k : String) (v d : Str)
    (h : k' ≠ k) : getD (setKey m k' v) k d = getD m k d := by
  simp [getD, find?_setKey_other m k' k v h]

theorem matchHeading_mem (s : Str) (L : String) (h : matchHeading s = some L) :
    L ∈ SECTION_HEADERS.map Prod.fst := by
  unfold matchHeading at h
  rcases Option.map_eq_some'.mp h with ⟨p, hfind, hL⟩
  rw [← hL]
  exact List.mem_map_of_mem Prod.fst (List.mem_of_find?_eq_some hfind)

theorem matchHeading_ne_header (s : Str) (L : String) (h : matchHeading s = some L) :
    L ≠ "header" := by
  have hmem := matchHeading_mem s L h
  have : ∀ x ∈ SECTION_HEADERS.map Prod.fst, x ≠ "header" := by decide
  exact this L hmem

theorem flushSeq_labels (lines : List Str) :
    ∀ (cur : String) (buf : List Str) (kb : String × List Str),
    kb ∈ flushSeq lines cur buf → kb.1 = cur ∨ kb.1 ∈ SECTION_HEADERS.map Prod.fst := by
  induction lines with
  | nil =>
    intro cur buf kb hkb
    simp [flushSeq] at hkb
    left; rw [hkb]
  | cons line rest ih =>
    intro cur buf kb hkb
    cases h : matchHeading (strip line) with
    | some sec =>
      rw [flushSeq, h] at hkb
      rcases List.mem_cons.mp hkb with heq | htail
      · left; rw [heq]
      · rcases ih sec [] kb htail with hc | hm
        · right; rw [hc]; exact matchHeading_mem _ _ h
        · right; exact hm
    | none =>
      rw [flushSeq, h] at hkb
      exact ih cur (line :: buf) kb hkb

theorem flushSeq_head (lines : List Str) :
    ∀ (cur : String) (buf : List Str),
    ∃ rest, flushSeq lines cur buf
        = (cur, buf.reverse ++ lines.takeWhile (fun l => (matchHeading (strip l)).isNone)) :: rest
      ∧ ∀ kb ∈ rest, kb.1 ∈ SECTION_HEADERS.map Prod.fst := by
  induction lines with
  | nil =>
    intro cur buf
    exact ⟨[], by simp [flushSeq], by simp⟩
  | cons line rest ih =>
    intro cur buf
    cases h : matchHeading (strip line) with
    | some sec =>
      refine ⟨flushSeq rest sec [], ?_, ?_⟩
      · rw [flushSeq, h, List.takeWhile_cons, h]
        simp
      · intro kb hkb
        rcases flushSeq_labels rest sec [] kb hkb with hc | hm
        · rw [hc]; exact matchHeading_mem _ _ h
        · exact hm
    | none =>
      obtain ⟨r, hr, hlab⟩ := ih cur (line :: buf)
      refine ⟨r, ?_, hlab⟩
      rw [flushSeq, h, hr, List.takeWhile_cons, h]
      simp

theorem find?_foldl_setKey (k : String) (rest : List (String × List Str)) :
    ∀ (m : List (String × Str)), (∀ kb ∈ rest, kb.1 ≠ k) →
    ((rest.foldl (fun m kb => setKey m kb.1 (strip (joinNl kb.2))) m).find?
      (fun p => p.1 = k)) = m.find? (fun p => p.1 = k) := by
  induction rest with
  | nil => intro m _; rfl
  | cons kb rest ih =>
    intro m hne
    rw [List.foldl_cons]
    rw [ih (setKey m kb.1 (strip (joinNl kb.2))) (fun x hx => hne x (List.mem_cons_of_mem kb hx))]
    exact find?_setKey_other m kb.1 k _ (hne kb (List.mem_cons_self kb rest))

/-- The "header" entry of `extract_sections`: always present, holding the
stripped join of the lines preceding the first recognized heading. -/
theorem extract_sections_header (text : Str) :
    (extract_sections text).find? (fun p => p.1 = "header")
      = some ("header",
          strip (joinNl ((splitOnNl text).takeWhile (fun l => (matchHeading (strip l)).isNone)))) := by
  unfold extract_sections
  rw [extractSectionsLoop_eq_fold]
  obtain ⟨rest, hr, hlab⟩ := flushSeq_head (splitOnNl text) "header" []
  rw [hr, List.foldl_cons]
  have hne : ∀ kb ∈ rest, kb.1 ≠ "header" := by
    intro kb hkb
    have : ∀ x ∈ SECTION_HEADERS.map Prod.fst, x ≠ "header" := by decide
    exact this kb.1 (hlab kb hkb)
  rw [find?_foldl_setKey "header" rest _ hne]
  simpa using find?_setKey_self [] "header" _

theorem getD_map_take (m : List (String × Str)) (k : String) (n : Nat) :
    getD (m.map (fun p => (p.1, p.2.take n))) k [] = (getD m k []).take n := by
  unfold getD
  rw [List.find?_map]
  cases hf : m.find? (fun p => p.1 = k) with
  | none =>
    have : m.find? ((fun p => decide (p.1 = k)) ∘ (fun p => (p.1, p.2.take n))) = none := by
      rw [List.find?_eq_none] at hf ⊢
      intro a ha; exact hf a ha
    rw [this]; simp
  | some p =>
    have : m.find? ((fun p => decide (p.1 = k)) ∘ (fun p => (p.1, p.2.take n))) = some p := by
      rw [← hf]; rfl
    rw [this]; simp

/-- C6 (amended): `extract_sections` always produces a "header" entry, holding
the stripped join of the lines preceding the first recognized heading (the
whole stripped input when no heading is recognized — never just the first
1000 characters: the `text[:1000]` fallback of `parse_text` is dead code);
the raw_sections copy stores its first 500 characters. -/
theorem spec_C6_amended (ts : String) (text : Str) :
    (extract_sections text).find? (fun p => p.1 = "header")
      = some ("header",
          strip (joinNl ((splitOnNl text).takeWhile (fun l => (matchHeading (strip l)).isNone))))
    ∧ getD (parse_text ts text).raw_sections "header" []
      = (strip (joinNl ((splitOnNl text).takeWhile (fun l => (matchHeading (strip l)).isNone)))).take 500 := by
  refine ⟨extract_sections_header text, ?_⟩
  have hraw : (parse_text ts text).raw_sections
      = (extract_sections text).map (fun p => (p.1, p.2.take 500)) := rfl
  rw [hraw, getD_map_take]
  unfold getD
  rw [extract_sections_header text]

/-- C6 (counterexample): on 1001 letters a with no heading anywhere, the
header raw section of the parse holds 500 characters: not everything before
the first recognized heading (1001 characters) and not the first ~1000
characters of the input. -/
theorem spec_C6_cex :
    getD (parse_text "ts" tC6).raw_sections "header" [] = List.replicate 500 'a'
    ∧ tC6.take 1000 = List.replicate 1000 'a'
    ∧ (List.replicate 500 'a' : Str) ≠ List.replicate 1000 'a'
    ∧ (List.replicate 500 'a' : Str) ≠ tC6 := by
  refine ⟨by decide, by decide, by decide, by decide⟩

theorem splitOnNl_no_nl (s : Str) (h : '\n' ∉ s) : splitOnNl s = [s] := by
  induction s with
  | nil => rfl
  | cons c cs ih =>
    have hc : c ≠ '\n' := fun hc => h (hc ▸ List.mem_cons_self c cs)
    have hcs : '\n' ∉ cs := fun hm => h (List.mem_cons_of_mem c hm)
    rw [splitOnNl]
    simp [hc, ih hcs]

theorem splitOnNl_append_nl (a t : Str) (h : '\n' ∉ a) :
    splitOnNl (a ++ '\n' :: t) = a :: splitOnNl t := by
  induction a with
  | nil => simp [splitOnNl]
  | cons c a ih =>
    have hc : c ≠ '\n' := fun hc => h (hc ▸ List.mem_cons_self c a)
    have ha : '\n' ∉ a := fun hm => h (List.mem_cons_of_mem c hm)
    rw [List.cons_append, splitOnNl]
    simp [hc, ih ha]

theorem splitOnNl_joinNl (ls : List Str) (h : ∀ l ∈ ls, '\n' ∉ l) (hne : ls ≠ []) :
    splitOnNl (joinNl ls) = ls := by
  induction ls with
  | nil => exact absurd rfl hne
  | cons l ls ih =>
    cases ls with
    | nil => exact splitOnNl_no_nl l (h l (List.mem_cons_self l []))
    | cons m r =>
      rw [joinNl]
      have hl : '\n' ∉ l := h l (List.mem_cons_self l (m :: r))
      have hrest : ∀ x ∈ m :: r, '\n' ∉ x := fun x hx => h x (List.mem_cons_of_mem l hx)
      rw [splitOnNl_append_nl l (joinNl (m :: r)) hl, ih hrest (by simp)]

theorem flushSeq_nohead (body : List Str) :
    ∀ (cur : String) (buf : List Str),
    (∀ l ∈ body, (matchHeading (strip l)).isNone) →
    flushSeq body cur buf = [(cur, buf.reverse ++ body)] := by
  induction body with
  | nil => intro cur buf _; simp [flushSeq]
  | cons l body ih =>
    intro cur buf hb
    have hl : (matchHeading (strip l)).isNone := hb l (List.mem_cons_self l body)
    have hln : matchHeading (strip l) = none := Option.isNone_iff_eq_none.mp hl
    rw [flushSeq, hln]
    rw [ih cur (l :: buf) (fun x hx => hb x (List.mem_cons_of_mem l hx))]
    simp

theorem flushSeq_seg (body : List Str) (h : Str) (rest : List Str) (L : String)
    (hh : matchHeading (strip h) = some L) :
    ∀ (cur : String) (buf : List Str),
    (∀ l ∈ body, (matchHeading (strip l)).isNone) →
    flushSeq (body ++ h :: rest) cur buf
      = (cur, buf.reverse ++ body) :: flushSeq rest L [] := by
  induction body with
  | nil =>
    intro cur buf _
    rw [List.nil_append, flushSeq, hh]
    simp
  | cons l body ih =>
    intro cur buf hb
    have hl : matchHeading (strip l) = none :=
      Option.isNone_iff_eq_none.mp (hb l (List.mem_cons_self l body))
    rw [List.cons_append, flushSeq, hl]
    rw [ih cur (l :: buf) (fun x hx => hb x (List.mem_cons_of_mem l hx))]
    simp

theorem extractSectionsLoop_eq_state (lines : List Str) :
    ∀ (cur : String) (buf : List Str) (secs : List (String × Str)),
    extractSectionsLoop lines cur buf secs = finalFlush (sectionsState lines (cur, buf, secs)) := by
  induction lines with
  | nil => intro cur buf secs; rfl
  | cons line rest ih =>
    intro cur buf secs
    cases h : matchHeading (strip line) with
    | some sec => simp [extractSectionsLoop, sectionsState, h, ih]
    | none => simp [extractSectionsLoop, sectionsState, h, ih]

theorem sectionsState_append (xs : List Str) :
    ∀ (ys : List Str) (cur : String) (buf : List Str) (secs : List (String × Str)),
    sectionsState (xs ++ ys) (cur, buf, secs) = sectionsState ys (sectionsState xs (cur, buf, secs)) := by
  induction xs with
  | nil => intro ys cur buf secs; rfl
  | cons x xs ih =>
    intro ys cur buf secs
    cases h : matchHeading (strip x) with
    | some sec => simp [sectionsState, h, ih]
    | none => simp [sectionsState, h, ih]

/-- A label that is neither the current label nor matched by any remaining
heading line is never written again: its final entry is whatever the sections
written so far hold. -/
theorem getD_state_other (lines : List Str) :
    ∀ (cur : String) (buf : List Str) (secs : List (String × Str)) (k : String),
    cur ≠ k → (∀ l ∈ lines, matchHeading (strip l) ≠ some k) →
    getD (finalFlush (sectionsState lines (cur, buf, secs))) k [] = getD secs k [] := by
  induction lines with
  | nil =>
    intro cur buf secs k hck _
    exact getD_setKey_other secs cur k _ [] hck
  | cons l rest ih =>
    intro cur buf secs k hck hl
    cases h : matchHeading (strip l) with
    | none =>
      rw [show sectionsState (l :: rest) (cur, buf, secs)
          = sectionsState rest (cur, l :: buf, secs) from by rw [sectionsState, h]]
      exact ih cur (l :: buf) secs k hck (fun x hx => hl x (List.mem_cons_of_mem l hx))
    | some M =>
      have hMk : M ≠ k := by
        intro hMk
        exact hl l (List.mem_cons_self l rest) (by rw [h, hMk])
      rw [show sectionsState (l :: rest) (cur, buf, secs)
          = sectionsState rest (M, [], setKey secs cur (strip (joinNl buf.reverse))) from by
        rw [sectionsState, h]]
      rw [ih M [] _ k hMk (fun x hx => hl x (List.mem_cons_of_mem l hx))]
      exact getD_setKey_other secs cur k _ [] hck

/-- Once the loop is in section `cur` and no remaining line is a heading of
label `cur` again, the final entry of `cur` is the stripped join of the
pending buffer and the lines up to the next recognized heading — independent
of everything written before. -/
theorem getD_state_self (post : List Str) :
    ∀ (cur : String) (buf : List Str) (secs : List (String × Str)),
    (∀ l ∈ post, matchHeading (strip l) ≠ some cur) →
    getD (finalFlush (sectionsState post (cur, buf, secs))) cur []
      = strip (joinNl (buf.reverse ++ post.takeWhile (fun l => (matchHeading (strip l)).isNone))) := by
  induction post with
  | nil =>
    intro cur buf secs _
    rw [show finalFlush (sectionsState [] (cur, buf, secs))
        = setKey secs cur (strip (joinNl buf.reverse)) from rfl]
    rw [getD_setKey_self]
    simp
  | cons l rest ih =>
    intro cur buf secs hpost
    cases h : matchHeading (strip l) with
    | none =>
      rw [show sectionsState (l :: rest) (cur, buf, secs)
          = sectionsState rest (cur, l :: buf, secs) from by rw [sectionsState, h]]
      rw [ih cur (l :: buf) secs (fun x hx => hpost x (List.mem_cons_of_mem l hx))]
      rw [List.takeWhile_cons]
      simp [h]
    | some M =>
      have hMc : M ≠ cur := by
        intro hMc
        exact hpost l (List.mem_cons_self l rest) (by rw [h, hMc])
      rw [show sectionsState (l :: rest) (cur, buf, secs)
          = sectionsState rest (M, [], setKey secs cur (strip (joinNl buf.reverse))) from by
        rw [sectionsState, h]]
      rw [getD_state_other rest M [] _ cur hMc (fun x hx => hpost x (List.mem_cons_of_mem l hx))]
      rw [getD_setKey_self]
      rw [List.takeWhile_cons]
      simp [h]

/-- C9: in any input whose lines contain two heading lines of the same label
— arbitrary lines before the first of them, arbitrary lines (other sections
included) between them, and the later one the last heading of that label —
the returned mapping binds the label to the stripped block following the
later heading (up to the next recognized heading), so the block that
accumulated under the label before the later heading is overwritten and
lost. -/
theorem spec_C9 (pre mid post : List Str) (h1 h2 : Str) (L : String)
    (_hh1 : matchHeading (strip h1) = some L)
    (hh2 : matchHeading (strip h2) = some L)
    (hpost : ∀ l ∈ post, matchHeading (strip l) ≠ some L)
    (hnl : ∀ l ∈ pre ++ h1 :: (mid ++ h2 :: post), '\n' ∉ l) :
    getD (extract_sections (joinNl (pre ++ h1 :: (mid ++ h2 :: post)))) L []
      = strip (joinNl (post.takeWhile (fun l => (matchHeading (strip l)).isNone))) := by
  have hne : pre ++ h1 :: (mid ++ h2 :: post) ≠ [] := by simp
  have hsplit := splitOnNl_joinNl _ hnl hne
  unfold extract_sections
  rw [hsplit, extractSectionsLoop_eq_state]
  have hassoc : pre ++ h1 :: (mid ++ h2 :: post) = (pre ++ h1 :: mid) ++ h2 :: post := by
    simp
  rw [hassoc, sectionsState_append]
  obtain ⟨c1, b1, s1, hst⟩ :
      ∃ c b s, sectionsState (pre ++ h1 :: mid) ("header", [], []) = (c, b, s) :=
    ⟨_, _, _, rfl⟩
  rw [hst]
  rw [show sectionsState (h2 :: post) (c1, b1, s1)
      = sectionsState post (L, [], setKey s1 c1 (strip (joinNl b1.reverse))) from by
    rw [sectionsState, hh2]]
  rw [getD_state_self post L [] _ hpost]
  simp

theorem spec_C9_witness :
    getD (extract_sections (joinNl ([strOf "John Smith"] ++ strOf "Skills" ::
        ([strOf "python", strOf "Education", strOf "MIT"] ++ strOf "SKILLS:" ::
          [strOf "java", strOf "Projects", strOf "stuff"])))) "skills" []
      = strip (joinNl ([strOf "java", strOf "Projects", strOf "stuff"].takeWhile
          (fun l => (matchHeading (strip l)).isNone))) :=
  spec_C9 [strOf "John Smith"] [strOf "python", strOf "Education", strOf "MIT"]
    [strOf "java", strOf "Projects", strOf "stuff"] (strOf "Skills") (strOf "SKILLS:") "skills"
    (by decide) (by decide) (by decide) (by decide)

/-- C4: the fallback policy is asymmetric: an empty or absent education
section sends the education extractor over the whole document, while an empty
or absent experience or projects section yields the empty list with no
whole-document fallback. -/
theorem spec_C4 (ts : String) (text : Str) :
    (getD (extract_sections text) "experience" [] = [] →
      (parse_text ts text).experience = [])
    ∧ (getD (extract_sections text) "projects" [] = [] →
      (parse_text ts text).projects = [])
    ∧ (getD (extract_sections text) "education" [] = [] →
      (parse_text ts text).education = extract_education text) := by
  refine ⟨fun h => ?_, fun h => ?_, fun h => ?_⟩
  · rw [show (parse_text ts text).experience
        = if !(getD (extract_sections text) "experience" []).isEmpty
          then extract_experience (getD (extract_sections text) "experience" []) else []
        from rfl, h]
    simp
  · rw [show (parse_text ts text).projects
        = if !(getD (extract_sections text) "projects" []).isEmpty
          then extract_projects (getD (extract_sections text) "projects" []) else []
        from rfl, h]
    simp
  · rw [show (parse_text ts text).education
        = if !(getD (extract_sections text) "education" []).isEmpty
          then extract_education (getD (extract_sections text) "education" [])
          else extract_education text
        from rfl, h]
    simp

theorem spec_C4_witness :
    (parse_text "ts" tC4).experience = []
    ∧ (parse_text "ts" tC4).projects = []
    ∧ (parse_text "ts" tC4).education = extract_education tC4
    ∧ extract_education tC4 ≠ [] := by
  refine ⟨(spec_C4 "ts" tC4).1 (by decide), (spec_C4 "ts" tC4).2.1 (by decide),
    (spec_C4 "ts" tC4).2.2 (by decide), by decide⟩

theorem orElse_eq_some_cases (a : Option Str) (f : Unit → Option Str) (b : Str)
    (h : a.orElse f = some b) : a = some b ∨ f () = some b := by
  cases a with
  | none => right; simpa [Option.orElse] using h
  | some v => left; simpa [Option.orElse] using h

theorem takeNDigits_digit (n : Nat) (t r : Str) (h : takeNDigits (n + 1) t = some r) :
    ∃ c ∈ t, c.isDigit := by
  cases t with
  | nil => simp [takeNDigits] at h
  | cons c cs =>
    rw [takeNDigits] at h
    by_cases hc : c.isDigit
    · exact ⟨c, List.mem_cons_self c cs, hc⟩
    · rw [if_neg hc] at h; cases h

theorem litAt_suffix : ∀ (l s r : Str), litAt l s = some r → r <:+ s := by
  intro l
  induction l with
  | nil => intro s r h; rw [litAt] at h; cases h; exact List.suffix_refl _
  | cons x xs ih =>
    intro s r h
    cases s with
    | nil => simp [litAt] at h
    | cons c cs =>
      rw [litAt] at h
      by_cases hc : lchar c = x
      · rw [if_pos hc] at h
        exact (ih cs r h).trans (List.suffix_cons c cs)
      · rw [if_neg hc] at h; cases h

theorem monthCont_digit (s r : Str) (h : monthCont s = some r) : ∃ c ∈ s, c.isDigit := by
  unfold monthCont at h
  have hsub : ∀ (x : Str), x <:+ s → takeNDigits 4 (x.dropWhile isSpace) = some r →
      ∃ c ∈ s, c.isDigit := by
    intro x hx hdig
    obtain ⟨c, hc, hcd⟩ := takeNDigits_digit 3 _ r hdig
    exact ⟨c, ((List.dropWhile_suffix isSpace).trans hx).mem hc, hcd⟩
  split at h
  · exact hsub _ (List.suffix_cons '.' _) h
  · exact hsub s (List.suffix_refl s) h

theorem tryMonthToken_digit (tok : String) (s r : Str) (h : tryMonthToken tok s = some r) :
    ∃ c ∈ s, c.isDigit := by
  unfold tryMonthToken at h
  split at h
  · rename_i rest hlit
    obtain ⟨c, hc, hcd⟩ := monthCont_digit rest r h
    exact ⟨c, (litAt_suffix _ s rest hlit).mem hc, hcd⟩
  · cases h

theorem dateBranch1_digit (s r : Str) (h : dateBranch1 s = some r) : ∃ c ∈ s, c.isDigit := by
  unfold dateBranch1 at h
  obtain ⟨fa, _, hfa⟩ := List.exists_of_findSome?_eq_some h
  rcases orElse_eq_some_cases _ _ _ hfa with h1 | h1
  · exact tryMonthToken_digit fa.1 s r h1
  · exact tryMonthToken_digit fa.2 s r h1

theorem dateBranch2_digit (s r : Str) (h : dateBranch2 s = some r) : ∃ c ∈ s, c.isDigit := by
  unfold dateBranch2 at h
  split at h
  · rename_i a rest
    by_cases ha : a.isDigit
    · exact ⟨a, List.mem_cons_self a rest, ha⟩
    · rw [if_neg ha] at h; cases h
  · cases h

theorem dateBranch3_digit (s r : Str) (h : dateBranch3 s = some r) : ∃ c ∈ s, c.isDigit := by
  unfold dateBranch3 at h
  split at h
  · cases h
  · rename_i r1 h1
    exact takeNDigits_digit 3 s r1 h1

theorem dateMatchRest_digit (s r : Str) (h : dateMatchRest s = some r) :
    ∃ c ∈ s, c.isDigit := by
  unfold dateMatchRest at h
  rcases orElse_eq_some_cases _ _ _ h with h1 | h1
  · exact dateBranch1_digit s r h1
  rcases orElse_eq_some_cases _ _ _ h1 with h2 | h2
  · exact dateBranch2_digit s r h2
  rcases orElse_eq_some_cases _ _ _ h2 with h3 | h3
  · exact dateBranch3_digit s r h3
  · exact takeNDigits_digit 3 s r h3

theorem refindallF_digit (fuel : Nat) :
    ∀ (s : Str), refindallF dateMatchRest fuel s ≠ [] → ∃ c ∈ s, c.isDigit := by
  induction fuel with
  | zero => intro s h; simp [refindallF] at h
  | succ fuel ih =>
    intro s h
    cases s with
    | nil => simp [refindallF] at h
    | cons c cs =>
      rw [refindallF] at h
      split at h
      · rename_i rest hrest
        exact dateMatchRest_digit _ _ hrest
      · obtain ⟨d, hd, hdd⟩ := ih cs h
        exact ⟨d, List.mem_cons_of_mem c hd, hdd⟩

theorem refindall_digit (s : Str) (h : refindall dateMatchRest s ≠ []) :
    ∃ c ∈ s, c.isDigit :=
  refindallF_digit s.length s h

theorem strip_eq_nil_imp (s : Str) (h : strip s = []) : ∀ c ∈ s, isSpace c := by
  unfold strip at h
  rw [List.reverse_eq_nil_iff, List.dropWhile_eq_nil_iff] at h
  have h2 : ∀ x ∈ s.dropWhile isSpace, isSpace x := fun x hx =>
    h x (List.mem_reverse.mpr hx)
  intro c hc
  rw [← List.takeWhile_append_dropWhile (p := isSpace) (l := s)] at hc
  rcases List.mem_append.mp hc with h3 | h3
  · exact List.mem_takeWhile_imp h3
  · exact h2 c h3

theorem strip_ne_nil (s : Str) (c : Char) (hc : c ∈ s) (hns : isSpace c = false) :
    strip s ≠ [] := by
  intro h
  have := strip_eq_nil_imp s h c hc
  rw [hns] at this
  cases this

theorem splitOnNl_ne_nil (s : Str) : splitOnNl s ≠ [] := by
  cases s with
  | nil => simp [splitOnNl]
  | cons c cs =>
    rw [splitOnNl]
    split <;> simp

theorem mem_splitOnNl (s : Str) (c : Char) (hc : c ∈ s) (hcn : c ≠ '\n') :
    ∃ l ∈ splitOnNl s, c ∈ l := by
  induction s with
  | nil => cases hc
  | cons x xs ih =>
    obtain ⟨h0, t, hst⟩ : ∃ h0 t, splitOnNl xs = h0 :: t := by
      cases hx : splitOnNl xs with
      | nil => exact absurd hx (splitOnNl_ne_nil xs)
      | cons a b => exact ⟨a, b, rfl⟩
    rcases List.mem_cons.mp hc with rfl | hmem
    · rw [splitOnNl]
      simp only [hst, if_neg hcn]
      exact ⟨c :: h0, List.mem_cons_self _ _, List.mem_cons_self c h0⟩
    · obtain ⟨l, hl, hcl⟩ := ih hmem
      have hl2 : l ∈ h0 :: t := hst ▸ hl
      rw [splitOnNl]
      simp only [hst]
      by_cases hx2 : x = '\n'
      · rw [if_pos hx2]
        exact ⟨l, List.mem_cons_of_mem _ hl2, hcl⟩
      · rw [if_neg hx2]
        rcases List.mem_cons.mp hl2 with rfl | hlt
        · exact ⟨x :: l, List.mem_cons_self _ _, List.mem_cons_of_mem x hcl⟩
        · exact ⟨l, List.mem_cons_of_mem _ hlt, hcl⟩

theorem digit_not_space (c : Char) (h : c.isDigit = true) : isSpace c = false := by
  cases hs : isSpace c
  · rfl
  · exfalso
    have h6 : ((((c = ' ' ∨ c = '\t') ∨ c = '\n') ∨ c = '\x0d') ∨ c = '\x0b') ∨ c = '\x0c' := by
      simpa [isSpace] using hs
    rcases h6 with ((((rfl | rfl) | rfl) | rfl) | rfl) | rfl <;> exact absurd h (by decide)

theorem linesFilter_ne_nil (block : Str) (c : Char) (hc : c ∈ block)
    (hns : isSpace c = false) : neLines block ≠ [] := by
  unfold neLines
  have hcn : c ≠ '\n' := by
    rintro rfl
    simp [isSpace] at hns
  obtain ⟨l, hl, hcl⟩ := mem_splitOnNl block c hc hcn
  have hstrip : strip l ≠ [] := strip_ne_nil l c hcl hns
  have hmem : strip l ∈ ((splitOnNl block).map strip).filter (fun l => !l.isEmpty) :=
    List.mem_filter.mpr ⟨List.mem_map_of_mem strip hl, by simpa using hstrip⟩
  exact List.ne_nil_of_mem hmem


theorem expStep_eq_expClaim (b : Str) : expStep b = expClaim b := by
  unfold expStep expClaim
  by_cases hd : refindall dateMatchRest b = []
  · rw [hd]
    split <;> simp
  · obtain ⟨c, hc, hcd⟩ := refindall_digit b hd
    have hns := digit_not_space c hcd
    have h1 : (strip b).isEmpty = false := by
      simpa using strip_ne_nil b c hc hns
    have h2 : (neLines b).isEmpty = false := by
      simpa using linesFilter_ne_nil b c hc hns
    have h3 : (refindall dateMatchRest b).isEmpty = false := by simpa using hd
    rw [h1]
    simp only [Bool.false_eq_true, if_false, h3, h2, Bool.not_false, Bool.and_self, if_true]
    by_cases hl1 : 1 < (neLines b).length
    · by_cases hl2 : 2 < (neLines b).length
      · rw [if_pos hl1, if_pos hl2, if_neg (by omega)]
      · rw [if_pos hl1, if_neg hl2, if_pos (by omega)]
    · have hl2 : ¬ 2 < (neLines b).length := by omega
      rw [if_neg hl1, if_neg hl2, if_pos (by omega), List.getD_eq_getElem?_getD,
        List.getElem?_eq_none (by omega)]
      rfl

/-- C7: the experience extractor splits on blank-line gaps; a block yields a
record iff it has at least one date match; title is the first non-empty line,
company the second when present else empty, dates all date matches of the
block, description empty when the block has at most two non-empty lines. -/
theorem spec_C7 (text : Str) :
    extract_experience text = (splitBlocks text).filterMap expClaim := by
  unfold extract_experience
  rw [show expStep = expClaim from funext expStep_eq_expClaim]

/-- C10: each project record's technologies are computed from the full
untruncated description while the stored description is cut to 300
characters; concretely, on `tC10` the technology Python is listed although
python occurs only past the 300-character cut and is no substring of the
stored description. -/
theorem spec_C10 :
    (∀ (text : Str) (r : ProjectRecord), r ∈ extract_projects text →
      ∃ desc : Str, r.description = desc.take 300
        ∧ r.technologies
          = ((ALL_SKILLS.filter (fun sk => wordSearch sk.data (toLowerStr desc))).map
              (fun sk => capitalizeStr sk.data)).take 8)
    ∧ extract_projects tC10
        = [{ name := strOf "P", description := List.replicate 300 'x',
             technologies := [strOf "Python"] }]
    ∧ ¬ strOf "python" <:+: toLowerStr (List.replicate 300 'x') := by
  refine ⟨?_, by decide, by decide⟩
  intro text r hr
  unfold extract_projects at hr
  obtain ⟨b, hb, hstep⟩ := List.mem_filterMap.mp (List.mem_of_mem_take hr)
  unfold projStep at hstep
  by_cases hl : (neLines b).isEmpty
  · rw [if_pos hl] at hstep; cases hstep
  · rw [if_neg hl] at hstep
    injection hstep with hrec
    subst hrec
    exact ⟨joinNl (neLines b).tail, rfl, rfl⟩

theorem spec_C10_witness :
    ∃ desc : Str, (List.replicate 300 'x' : Str) = desc.take 300
      ∧ [strOf "Python"]
        = ((ALL_SKILLS.filter (fun sk => wordSearch sk.data (toLowerStr desc))).map
            (fun sk => capitalizeStr sk.data)).take 8 :=
  spec_C10.1 tC10
    { name := strOf "P", description := List.replicate 300 'x',
      technologies := [strOf "Python"] }
    (by decide)
